import Mathlib

/-!
# Verification of the graphBackend call-graph explorer

Shallow embedding of the query/resolution layer and the graph-assembly/budgeting
engine of the repository:

* `src/db.js` (source path resolver, query registry, per-file function listing),
* `src/app.js` (file browser index, HTTP handlers),
* `front_code/src/App.jsx` (graph selection/budgeting and element assembly).

JavaScript runtime behaviour is modelled as follows:

* machine numbers are `Int`/`Nat` (the code only ever computes small integer
  arithmetic: depths, budgets, scores);
* a possibly-missing (`undefined`/`null`) string or number field is an
  `Option`; JS truthiness of a string is "present and nonempty";
* `Map` objects are association lists in key-insertion order (`Map.set` on an
  existing key updates in place, otherwise appends);
* `Array.prototype.sort` with a consistent comparator is a stable sort
  (`stableSort` below, with the comparator's `≤`);
* SQLite `=` on text is exact (binary) equality; SQLite `LIKE` is modelled by
  an explicit matcher with `%`/`_` wildcards and ASCII case folding;
* `String.prototype.localeCompare` under the default (ICU root) collation is
  modelled for ASCII strings: primary key = the case-folded string, tertiary
  key = the case pattern with lowercase before uppercase.
-/

namespace GraphBackend

/-! ## JavaScript string helpers -/

/-- JS truthiness of a possibly-missing string: present and nonempty. -/
def strTruthy : Option String → Bool
  | none => false
  | some s => s ≠ ""

/-- `value || null` on a possibly-missing string: `""` collapses to `null`. -/
def jsStrOrNull (o : Option String) : Option String :=
  if strTruthy o then o else none

/-- `value || null` on a possibly-missing number: `0` collapses to `null`. -/
def jsIntOrNull : Option Int → Option Int
  | none => none
  | some v => if v = 0 then none else some v

/-!
The JavaScript string primitives the code uses are implemented here on the
character list underlying a `String` (structural recursion throughout, so that
every definition evaluates inside the kernel).
-/

/-- `String.prototype.trim` (ASCII whitespace). -/
def jsTrim (s : String) : String :=
  ⟨((s.data.dropWhile Char.isWhitespace).reverse.dropWhile Char.isWhitespace).reverse⟩

/-- `s.split("/")` on the underlying characters. -/
def splitSlashAux (cur : List Char) : List Char → List (List Char)
  | [] => [cur.reverse]
  | c :: rest =>
    if c = '/' then cur.reverse :: splitSlashAux [] rest
    else splitSlashAux (c :: cur) rest

/-- `s.split("/")`. -/
def splitSlash (s : String) : List String :=
  (splitSlashAux [] s.data).map (fun l => ⟨l⟩)

/-- `parts.join("/")` on character lists. -/
def joinSlashL : List (List Char) → List Char
  | [] => []
  | [l] => l
  | l :: rest => l ++ '/' :: joinSlashL rest

/-- `parts.join("/")`. -/
def joinSlash (parts : List String) : String :=
  ⟨joinSlashL (parts.map (·.data))⟩

/-- `s.endsWith(suffix)` (exact code units). -/
def endsWithStr (s suffixStr : String) : Bool :=
  suffixStr.data.isSuffixOf s.data

/-- `s.toLowerCase()` (ASCII). -/
def jsToLower (s : String) : String :=
  ⟨s.data.map Char.toLower⟩

/-- `normalizeFilePath` (db.js): trim and convert every backslash to `/`
(the `/\\/g` regex replaces each backslash character). -/
def normalizeFilePath (filePath : String) : String :=
  ⟨(jsTrim filePath).data.map (fun c => if c = '\\' then '/' else c)⟩

/-- `normalized.replace(/^\.\//, "")`: strip one leading `./`. -/
def stripDotSlash (s : String) : String :=
  match s.data with
  | '.' :: '/' :: rest => ⟨rest⟩
  | _ => s

/-- `normalized.replace(/^\/+/, "")`: strip all leading `/`. -/
def stripLeadingSlashes (s : String) : String :=
  ⟨s.data.dropWhile (· = '/')⟩

/-- `path.replace(/\/+$/, "")`: strip all trailing `/`. -/
def stripTrailingSlashes (s : String) : String :=
  ⟨(s.data.reverse.dropWhile (· = '/')).reverse⟩

/-! ## SQLite `LIKE`

`findSourceFilesBySuffixStatement` runs `WHERE file LIKE ?` with the pattern
`'%' + suffix`.  SQLite `LIKE` (without `ESCAPE`, default
`case_sensitive_like = OFF`) treats `%` as "any sequence", `_` as "any single
character", and folds ASCII letters case-insensitively. -/

/-- One-character comparison under SQLite `LIKE`'s ASCII case folding. -/
def likeCharEq (p c : Char) : Bool :=
  p.toLower = c.toLower

/-- SQLite `LIKE` pattern matching over character lists (structural recursion
on the pattern: `%` consumes any suffix of the text, `_` one character, and
any other pattern character must case-fold-match the next text character). -/
def likeMatch : List Char → List Char → Bool
  | [], s => s.isEmpty
  | '%' :: ps, s => s.tails.any (fun t => likeMatch ps t)
  | '_' :: ps, s =>
    match s with
    | [] => false
    | _ :: t => likeMatch ps t
  | p :: ps, s =>
    match s with
    | [] => false
    | c :: t => likeCharEq p c && likeMatch ps t

/-- `file LIKE '%' + suffix` as run by the suffix lookup statement. -/
def sqliteLikeSuffix (suffix file : String) : Bool :=
  likeMatch ('%' :: suffix.data) file.data

/-- `SELECT file FROM sources WHERE file LIKE '%'+suffix LIMIT 2`; the store is
the list of canonical file paths in table-scan order. -/
def findSourceFilesBySuffix (files : List String) (suffix : String) : List String :=
  (files.filter (fun f => sqliteLikeSuffix suffix f)).take 2

/-! ## Source path resolver (`resolveSourceFilePath`, db.js) -/

/-- The exact-match loop of `resolveSourceFilePath`: try each candidate in
order, skipping empty candidates and candidates already tried (`seen`); a
candidate succeeds when the store holds exactly that path
(`SELECT file FROM sources WHERE file = ? LIMIT 1`). -/
def exactScan (files : List String) : List String → List String → Option String
  | [], _ => none
  | c :: rest, seen =>
    if c = "" ∨ c ∈ seen then exactScan files rest seen
    else if c ∈ files then some c
    else exactScan files rest (c :: seen)

/-- The suffix loop of `resolveSourceFilePath`, recursing over successively
shorter suffixes of the segment list: skip suffixes shorter than 8 characters,
query capped at 2 matches, succeed only on exactly one match. -/
def suffixScan (files : List String) : List String → Option String
  | [] => none
  | p :: rest =>
    let suffix := joinSlash (p :: rest)
    if suffix.length < 8 then suffixScan files rest
    else
      match findSourceFilesBySuffix files suffix with
      | [f] => some f
      | _ => suffixScan files rest

/-- `resolveSourceFilePath` (db.js): normalize, try exact candidates, then
fall back to unique-suffix matching. -/
def resolveSourceFilePath (files : List String) (filePath : String) : Option String :=
  let normalized := normalizeFilePath filePath
  if normalized = "" then none
  else
    let candidates := [normalized, stripDotSlash normalized, stripLeadingSlashes normalized]
    match exactScan files candidates [] with
    | some f => some f
    | none =>
      let parts := (splitSlash normalized).filter (· ≠ "")
      suffixScan files parts

/-! ### Spec-side formulations of the resolver phases

These two definitions follow the wording of the specification (§4.2) and the
claims; they are compared with the code-derived `resolveSourceFilePath` by the
refinement theorems below. -/

/-- Spec §4.2 step 2: the exact-match precedence list — the normalized path,
the path with a leading `./` stripped, the path with all leading `/` stripped —
returning the first candidate stored verbatim.  (Skipping duplicate candidates
does not change the first match.) -/
def exactMatchSpec (files : List String) (normalized : String) : Option String :=
  [normalized, stripDotSlash normalized, stripLeadingSlashes normalized].find?
    (fun c => files.contains c)

/-- The body of one suffix attempt, shared by the spec-side suffix loops. -/
def suffixStepWith (matcher : List String → String → List String)
    (files : List String) (segments : List String) (start : Nat) : Option String :=
  let suffix := joinSlash (segments.drop start)
  if suffix.length < 8 then none
  else
    match matcher files suffix with
    | [f] => some f
    | _ => none

/-- Spec §4.2 step 3 with the store queried by the *actual* statement
(`LIKE '%'+suffix` capped at 2): for `start = 0` upward, try the suffix
`segments[start:]`, skipping suffixes shorter than 8 characters, succeeding
only on a unique match. -/
def suffixMatchSpecLike (files : List String) (normalized : String) : Option String :=
  let segments := (splitSlash normalized).filter (· ≠ "")
  (List.range segments.length).findSome?
    (fun start => suffixStepWith findSourceFilesBySuffix files segments start)

/-- The claim's reading of the suffix query: stored files whose canonical path
*ends with* the suffix (plain string suffix, capped at 2). -/
def endsWithMatcher (files : List String) (suffix : String) : List String :=
  (files.filter (fun f => endsWithStr f suffix)).take 2

/-- Spec §4.2 step 3 exactly as the claim states it, with "files whose
canonical path ends with that suffix". -/
def suffixMatchSpecEndsWith (files : List String) (normalized : String) : Option String :=
  let segments := (splitSlash normalized).filter (· ≠ "")
  (List.range segments.length).findSome?
    (fun start => suffixStepWith endsWithMatcher files segments start)

/-! ## Query registry (db.js) -/

/-- `SELECT sql FROM queries WHERE name = ?`; the registry is the list of
`(name, sql)` rows. -/
def getQuerySql (queries : List (String × String)) (name : String) : Option String :=
  (queries.find? (fun q => q.1 = name)).map (·.2)

/-- `getPreparedQueryByName` (db.js): `null` when no row exists or the stored
`sql` text is falsy; otherwise the compiled statement, represented by its SQL
text.  The per-name statement cache is semantically transparent (same lookup,
same compilation) and is not modelled. -/
def getPreparedQueryByName (queries : List (String × String)) (name : String) :
    Option String :=
  match getQuerySql queries name with
  | none => none
  | some sql => if sql = "" then none else some sql

/-- The registry's failure mode: `throw new Error("Unknown query: " + name)`. -/
inductive RegistryError where
  | unknownQuery (name : String)
deriving DecidableEq, Repr

/-- A database row as a list of column/value pairs. -/
abbrev QueryRow := List (String × String)

/-- `runQueryByName` (db.js): look up the prepared statement, failing with
`UnknownQuery` when absent, otherwise execute it (`statement.all(params)`,
abstracted by `runner`). -/
def runQueryByName (queries : List (String × String))
    (runner : String → List (String × String) → List QueryRow)
    (name : String) (params : List (String × String)) :
    Except RegistryError (List QueryRow) :=
  match getPreparedQueryByName queries name with
  | none => .error (.unknownQuery name)
  | some sql => .ok (runner sql params)

/-! ## Locale collation (`String.prototype.localeCompare`)

The server's directory listing and the client's tie-breaking both sort with
`a.localeCompare(b)` under the runtime's default locale (Node ships full ICU).
For ASCII strings the ICU root collation compares case-insensitively first
("a" < "B") and breaks ties by case with lowercase first ("a" < "A").  We model
it by a primary key (the case-folded string) and a tertiary key (the case
pattern, lowercase marked before uppercase), compared lexicographically. -/

/-- Strict code-point lexicographic order on character lists. -/
def lexLtChar : List Char → List Char → Bool
  | [], [] => false
  | [], _ :: _ => true
  | _ :: _, [] => false
  | c :: cs, d :: ds => if c = d then lexLtChar cs ds else decide (c < d)

/-- Code-point lexicographic `≤` on character lists. -/
def lexLeChar : List Char → List Char → Bool
  | [], _ => true
  | _ :: _, [] => false
  | c :: cs, d :: ds => if c = d then lexLeChar cs ds else decide (c < d)

/-- Primary collation key: the case-folded characters. -/
def primaryKey (s : String) : List Char :=
  s.data.map Char.toLower

/-- Tertiary (case) key: lowercase positions sort before uppercase ones. -/
def caseKey (s : String) : List Char :=
  s.data.map (fun c => if c.isUpper then 'B' else 'A')

/-- `a.localeCompare(b) <= 0` in the model described above. -/
def localeLe (a b : String) : Bool :=
  if primaryKey a = primaryKey b then lexLeChar (caseKey a) (caseKey b)
  else lexLtChar (primaryKey a) (primaryKey b)

/-! ## Stable sorting (`Array.prototype.sort`)

`Array.prototype.sort` is a stable sort; for a consistent comparator the
result — the unique stable reordering that is sorted by the comparator — does
not depend on the sorting algorithm.  It is modelled by a structurally
recursive stable insertion sort (`stableSort le`, where `le a b` means
"the comparator returns ≤ 0 on (a, b)"): each element is inserted after the
elements already placed that compare ≤ to it, preserving the original order
of ties. -/

/-- Insert `a` after every already-placed element that compares `le` to it. -/
def insertSorted (le : α → α → Bool) (a : α) : List α → List α
  | [] => [a]
  | b :: l => if le b a then b :: insertSorted le a l else a :: b :: l

/-- Stable insertion sort with comparator `le`. -/
def stableSort (le : α → α → Bool) (l : List α) : List α :=
  l.foldl (fun acc a => insertSorted le a acc) []

theorem mem_insertSorted (le : α → α → Bool) (a : α) :
    ∀ l x, x ∈ insertSorted le a l ↔ x = a ∨ x ∈ l := by
  intro l
  induction l with
  | nil => simp [insertSorted]
  | cons b rest ih =>
    intro x
    simp only [insertSorted]
    split
    · rw [List.mem_cons, ih x, List.mem_cons]
      tauto
    · simp only [List.mem_cons]

theorem length_insertSorted (le : α → α → Bool) (a : α) :
    ∀ l, (insertSorted le a l).length = l.length + 1 := by
  intro l
  induction l with
  | nil => rfl
  | cons b rest ih =>
    simp only [insertSorted]
    split <;> simp [ih]

theorem mem_stableSort (le : α → α → Bool) (l : List α) (x : α) :
    x ∈ stableSort le l ↔ x ∈ l := by
  suffices h : ∀ (l acc : List α) (x : α),
      x ∈ l.foldl (fun acc a => insertSorted le a acc) acc ↔ x ∈ acc ∨ x ∈ l by
    have := h l [] x
    simpa [stableSort] using this
  intro l
  induction l with
  | nil => simp
  | cons a rest ih =>
    intro acc x
    simp only [List.foldl_cons, ih, mem_insertSorted, List.mem_cons]
    tauto

theorem pairwise_insertSorted (le : α → α → Bool)
    (htrans : ∀ a b c, le a b → le b c → le a c)
    (htotal : ∀ a b, le a b || le b a) (a : α) :
    ∀ l, l.Pairwise (le · ·) → (insertSorted le a l).Pairwise (le · ·) := by
  intro l
  induction l with
  | nil => intro _; simp [insertSorted]
  | cons b rest ih =>
    intro h
    rcases List.pairwise_cons.mp h with ⟨hb, hrest⟩
    simp only [insertSorted]
    split
    · rename_i hba
      refine List.pairwise_cons.mpr ⟨?_, ih hrest⟩
      intro x hx
      rcases (mem_insertSorted le a rest x).mp hx with rfl | hx
      · exact hba
      · exact hb x hx
    · rename_i hba
      have hab : le a b := by
        have := htotal a b
        rcases Bool.or_eq_true_iff.mp this with h1 | h1
        · exact h1
        · exact absurd h1 hba
      refine List.pairwise_cons.mpr ⟨?_, h⟩
      intro x hx
      rcases List.mem_cons.mp hx with rfl | hx
      · exact hab
      · exact htrans a b x hab (hb x hx)

theorem pairwise_stableSort (le : α → α → Bool)
    (htrans : ∀ a b c, le a b → le b c → le a c)
    (htotal : ∀ a b, le a b || le b a) (l : List α) :
    (stableSort le l).Pairwise (le · ·) := by
  suffices h : ∀ (l acc : List α), acc.Pairwise (le · ·) →
      (l.foldl (fun acc a => insertSorted le a acc) acc).Pairwise (le · ·) by
    exact h l [] (by simp)
  intro l
  induction l with
  | nil => intro acc h; simpa using h
  | cons a rest ih =>
    intro acc h
    exact ih _ (pairwise_insertSorted le htrans htotal a acc h)

/-! ## Association maps in insertion order (JS `Map`) -/

/-- `Map.set`-style update of an association list: combine with `f` in place
when the key is present (keeping its position), else append `f none`. -/
def upd (f : Option β → β) : List (String × β) → String → List (String × β)
  | [], k => [(k, f none)]
  | (k', v) :: rest, k =>
    if k' = k then (k', f (some v)) :: rest else (k', v) :: upd f rest k

/-- Keys of an association list, in insertion order. -/
def keysOf (m : List (String × β)) : List String :=
  m.map Prod.fst

/-- Lookup in an association list (`Map.get`). -/
def lookupA : List (String × β) → String → Option β
  | [], _ => none
  | (k', v) :: rest, k => if k' = k then some v else lookupA rest k

/-! ## File browser index (`buildFileBrowserIndex`, app.js) -/

/-- `normalizeBrowsePath` (app.js): trim, backslashes to `/`, strip leading
and trailing slashes. -/
def normalizeBrowsePath (inputPath : String) : String :=
  stripTrailingSlashes (stripLeadingSlashes
    ⟨(jsTrim inputPath).data.map (fun c => if c = '\\' then '/' else c)⟩)

/-- A `sources` row as consumed by the index builder. -/
structure SourceFileRow where
  file : String
  package : String
deriving DecidableEq, Repr

/-- A `DirectoryEntry` of the index; directory entries carry no package. -/
structure DirEntry where
  type : String
  name : String
  path : String
  package : Option String
deriving DecidableEq, Repr

/-- The index state: `directoryEntries` (path → (name → entry)) and
`knownDirectories`. -/
structure BrowserIndex where
  entries : List (String × List (String × DirEntry))
  known : List String
deriving Repr

/-- `ensureDirectory`: register an (initially empty) children map for a path. -/
def ensureDirectory (m : List (String × List (String × DirEntry))) (path : String) :
    List (String × List (String × DirEntry)) :=
  upd (fun old => old.getD []) m path

/-- `Map.set` on a children map: replace the entry outright. -/
def setEntry (m : List (String × DirEntry)) (name : String) (e : DirEntry) :
    List (String × DirEntry) :=
  upd (fun _ => e) m name

/-- Register one directory segment: ensure parent and child maps exist, link
the child under the parent, record the child as known.  Returns the updated
state paired with the child path (the loop's next `currentPath`). -/
def addDirSegment (st : BrowserIndex × String) (name : String) : BrowserIndex × String :=
  let parentPath := st.2
  let dirPath := if parentPath = "" then name else parentPath ++ "/" ++ name
  let entries := ensureDirectory (ensureDirectory st.1.entries parentPath) dirPath
  let entries := upd (fun old => setEntry (old.getD []) name
    ⟨"directory", name, dirPath, none⟩) entries parentPath
  (⟨entries, st.1.known ++ [dirPath]⟩, dirPath)

/-- Insert one source file row into the index (body of the build loop). -/
def addSourceFile (idx : BrowserIndex) (row : SourceFileRow) : BrowserIndex :=
  let filePath := normalizeBrowsePath row.file
  if filePath = "" then idx
  else
    let parts := (splitSlash filePath).filter (· ≠ "")
    match parts.getLast? with
    | none => idx
    | some fileName =>
      let st := parts.dropLast.foldl addDirSegment (idx, "")
      let parentPath := st.2
      let entries := ensureDirectory st.1.entries parentPath
      let entries := upd (fun old => setEntry (old.getD []) fileName
        ⟨"file", fileName, filePath, some row.package⟩) entries parentPath
      ⟨entries, st.1.known⟩

/-- `buildFileBrowserIndex` (app.js): the root `""` always exists; every file
path registers its ancestor directories and its leaf entry. -/
def buildFileBrowserIndex (files : List SourceFileRow) : BrowserIndex :=
  files.foldl addSourceFile ⟨[("", [])], [""]⟩

/-- Rank used to order entry types: directories (rank 0) before others. -/
def typeRank (e : DirEntry) : Nat :=
  if e.type = "directory" then 0 else 1

/-- The `listDirectory` comparator as a `≤` relation: directories before
files, then `a.name.localeCompare(b.name)`.  It is phrased through `typeRank`
so that it is total; on the two `type` values that ever occur ("directory"
and "file") it agrees exactly with the source comparator. -/
def entryLe (a b : DirEntry) : Bool :=
  if typeRank a = typeRank b then localeLe a.name b.name
  else typeRank a < typeRank b

/-- `hasDirectory` (app.js). -/
def hasDirectory (idx : BrowserIndex) (path : String) : Bool :=
  idx.known.contains path

/-- `listDirectory` (app.js): the children of `path` (empty when unknown),
sorted by `entryLe` (a stable sort with the source's comparator). -/
def listDirectory (idx : BrowserIndex) (path : String) : List DirEntry :=
  match lookupA idx.entries path with
  | none => []
  | some m => stableSort entryLe (m.map Prod.snd)

/-! ## HTTP layer helpers (app.js) -/

/-- The error taxonomy raised by the handlers. -/
inductive HttpError where
  | badRequest (msg : String)
  | notFound (msg : String)
  | serviceUnavailable (msg : String)
deriving DecidableEq, Repr

/-- `requireStringQueryParam` (app.js): the parameter must be a present,
non-blank string; it is returned trimmed. -/
def requireStringQueryParam (value : Option String) (name : String) :
    Except HttpError String :=
  match value with
  | none => .error (.badRequest s!"Query parameter \"{name}\" is required")
  | some s =>
    if jsTrim s = "" then .error (.badRequest s!"Query parameter \"{name}\" is required")
    else .ok (jsTrim s)

/-! ## `/call-graph/search` (app.js) -/

/-- The `limit` query parameter after `Number(...)`: either it parses to an
integer, or it is absent / does not parse to an integer (`Number.isInteger`
is false, e.g. for `NaN` or fractional values). -/
inductive LimitArg where
  | missing
  | integer (n : Int)
deriving DecidableEq, Repr

/-- The handler's limit computation: integers are clamped to `[1, 50]`,
everything else falls back to 25. -/
def computeLimit : LimitArg → Int
  | .integer n => min (max n 1) 50
  | .missing => 25

/-- A row returned by the `symbol_search` query (only the fields the handler
inspects are modelled). -/
structure SearchRow where
  kind : String
  name : String
deriving DecidableEq, Repr

/-- The handler's post-processing of the query rows:
`rows.filter(kind === "function").slice(0, limit)`. -/
def searchFunctions (rows : List SearchRow) (limitArg : LimitArg) : List SearchRow :=
  (rows.filter (fun r => r.kind = "function")).take (computeLimit limitArg).toNat

/-! ## `/call-graph/file-functions` (app.js + db.js) -/

/-- A `nodes` table row (the columns read by `listFunctionsByFileStatement`,
plus `kind` and `col` which its `WHERE`/`ORDER BY` clauses use). -/
structure NodeRow where
  id : String
  name : String
  package : String
  file : String
  line : Int
  col : Int
  end_line : Int
  parent_function : Option String
  kind : String
deriving DecidableEq, Repr

/-- `ORDER BY line, col, name` (ascending, text compared by code units). -/
def nodeRowLe (a b : NodeRow) : Bool :=
  a.line < b.line ||
    (a.line = b.line &&
      (a.col < b.col || (a.col = b.col && decide (a.name ≤ b.name))))

/-- `listFunctionsByFile` (db.js): resolve the path; on failure return `[]`,
otherwise the function rows of the resolved file ordered by line, col, name. -/
def listFunctionsByFile (files : List String) (nodes : List NodeRow)
    (filePath : String) : List NodeRow :=
  match resolveSourceFilePath files filePath with
  | none => []
  | some resolved =>
    stableSort nodeRowLe (nodes.filter (fun r => r.kind = "function" && r.file = resolved))

/-- The `/call-graph/file-functions` response payload. -/
structure FileFunctionsResponse where
  fileRequested : String
  fileResolved : Option String
  count : Nat
  functions : List NodeRow
deriving DecidableEq, Repr

/-- The `/call-graph/file-functions` handler (app.js lines 225-238):
validate the `file` parameter, resolve it, list the functions, and return a
success payload — the resolution result is embedded as `fileResolved`
(possibly `null`) and no not-found error is ever raised. -/
def fileFunctionsHandler (configured : Bool) (files : List String)
    (nodes : List NodeRow) (fileParam : Option String) :
    Except HttpError FileFunctionsResponse :=
  if !configured then .error (.serviceUnavailable "SQLite database is not configured")
  else
    match requireStringQueryParam fileParam "file" with
    | .error e => .error e
    | .ok file =>
      let resolvedFile := resolveSourceFilePath files file
      let functions := listFunctionsByFile files nodes file
      .ok ⟨file, resolvedFile, functions.length, functions⟩

/-- Recognizer for a 404 outcome. -/
def isNotFoundResult : Except HttpError FileFunctionsResponse → Bool
  | .error (.notFound _) => true
  | _ => false

/-! ## Client-side graph engine (App.jsx) -/

/-- `MAX_TRANSITIVE_DEPTH` (App.jsx line 7). -/
def MAX_TRANSITIVE_DEPTH : Int := 2

/-- `MAX_GRAPH_NODES` (App.jsx line 8). -/
def MAX_GRAPH_NODES : Nat := 60

/-- A traversal-result node as used by the client (id/name default to `""`
when missing; file, line, package and depth may be missing). -/
structure TraversalNode where
  id : String
  name : String
  file : Option String
  line : Option Int
  package : Option String
  direction : String
  depth : Option Int
deriving DecidableEq, Repr

/-- `Number(node.depth || 0)`: a missing depth counts as 0. -/
def depthVal (n : TraversalNode) : Int :=
  n.depth.getD 0

/-- The selected (focal) function's metadata. -/
structure FocalFunction where
  function_id : String
  name : String
  file : Option String
  line : Option Int
  package : Option String
deriving DecidableEq, Repr

/-- The three fetched traversal result sets. -/
structure GraphData where
  neighborhood : List TraversalNode
  callChain : List TraversalNode
  callers : List TraversalNode
deriving DecidableEq, Repr

/-- `loadGraph` (App.jsx lines 1047-1072): store the fetched payloads, with
the transitive lists filtered to `depth <= MAX_TRANSITIVE_DEPTH`; a payload
whose `nodes` is not an array is stored as `[]`. -/
def loadGraphData (neighborhoodNodes callChainNodes callersNodes :
    Option (List TraversalNode)) : GraphData where
  neighborhood :=
    match neighborhoodNodes with
    | some l => l
    | none => []
  callChain :=
    match callChainNodes with
    | some l => l.filter (fun n => depthVal n ≤ MAX_TRANSITIVE_DEPTH)
    | none => []
  callers :=
    match callersNodes with
    | some l => l.filter (fun n => depthVal n ≤ MAX_TRANSITIVE_DEPTH)
    | none => []

/-- `rankTraversalNode` (App.jsx): lower scores are more relevant. -/
def rankTraversalNode (n : TraversalNode) (sel : Option FocalFunction) : Int :=
  let depth := depthVal n
  let samePackage : Int :=
    if strTruthy n.package && n.package = (sel.bind (·.package)) then 1 else 0
  let sameFile : Int :=
    if strTruthy n.file && n.file = (sel.bind (·.file)) then 1 else 0
  let hasLocalSource : Int := if strTruthy n.file then 1 else 0
  let externalPenalty : Int := if "ext::".data.isPrefixOf n.id.data then 1 else 0
  depth * 100 - samePackage * 20 - sameFile * 10 - hasLocalSource * 5 +
    externalPenalty * 15

/-- The sort comparator of `takeMeaningfulNodes` as a `≤` relation: by score,
ties broken by `localeCompare` on names. -/
def nodeLe (sel : Option FocalFunction) (l r : TraversalNode) : Bool :=
  let ls := rankTraversalNode l sel
  let rs := rankTraversalNode r sel
  if ls = rs then localeLe l.name r.name else ls < rs

/-- `takeMeaningfulNodes` (App.jsx): empty on a non-positive budget, else the
`budget` best-ranked nodes (stable sort, then `slice(0, budget)`). -/
def takeMeaningfulNodes (nodes : List TraversalNode) (budget : Nat)
    (sel : Option FocalFunction) : List TraversalNode :=
  if budget = 0 then []
  else (stableSort (nodeLe sel) nodes).take budget

/-- `isAllowedGraphNode` (App.jsx): drop nodes without an id; keep file-less
nodes; otherwise require a `.go` file (case-insensitive). -/
def isAllowedGraphNode (n : TraversalNode) : Bool :=
  if n.id = "" then false
  else if !strTruthy n.file then true
  else endsWithStr (jsToLower (n.file.getD "")) ".go"

/-- Distinct direct-neighbor ids after filtering (`new Set(...).size`). -/
def directCount (gd : GraphData) : Nat :=
  (((gd.neighborhood.filter isAllowedGraphNode).map (·.id)).dedup).length

/-- `selectGraphData` (App.jsx lines 234-290) with the node ceiling as an
explicit parameter (the source fixes it to `MAX_GRAPH_NODES`).  In the
"neighbors" view only the direct layer survives; otherwise the remaining
budget (ceiling minus focal minus distinct direct ids, floored at 0) is split
between callers and callees, each pool is ranked and truncated, and leftover
capacity is refilled from the union of unselected candidates, each extra
routed back to the callers pool iff its id occurs in the callers result. -/
def selectGraphDataWith (maxNodes : Nat) (gd : GraphData) (graphView : String)
    (sel : Option FocalFunction) : GraphData :=
  let neighborhood := gd.neighborhood.filter isAllowedGraphNode
  let callChain := gd.callChain.filter isAllowedGraphNode
  let callers := gd.callers.filter isAllowedGraphNode
  if graphView = "neighbors" then ⟨neighborhood, [], []⟩
  else
    let directIds := (neighborhood.map (·.id)).dedup
    let remainingBudget := maxNodes - 1 - directIds.length
    let filteredCallers := callers.filter (fun n => !(directIds.contains n.id))
    let filteredCallees := callChain.filter (fun n => !(directIds.contains n.id))
    let callerBudget := remainingBudget / 2
    let calleeBudget := remainingBudget - callerBudget
    let selectedCallers := takeMeaningfulNodes filteredCallers callerBudget sel
    let selectedCallees := takeMeaningfulNodes filteredCallees calleeBudget sel
    let leftoverBudget := remainingBudget - selectedCallers.length - selectedCallees.length
    let selectedIds := (selectedCallers.map (·.id)) ++ (selectedCallees.map (·.id))
    let remainingNodes :=
      (filteredCallers ++ filteredCallees).filter (fun n => !(selectedIds.contains n.id))
    let extras :=
      if leftoverBudget = 0 then [] else takeMeaningfulNodes remainingNodes leftoverBudget sel
    let extraCallers := extras.filter (fun n => callers.any (fun c => c.id = n.id))
    let extraCallees := extras.filter (fun n => !(callers.any (fun c => c.id = n.id)))
    ⟨neighborhood, selectedCallees ++ extraCallees, selectedCallers ++ extraCallers⟩

/-- `selectGraphData` as the source calls it, with `MAX_GRAPH_NODES`. -/
def selectGraphData (gd : GraphData) (graphView : String)
    (sel : Option FocalFunction) : GraphData :=
  selectGraphDataWith MAX_GRAPH_NODES gd graphView sel

/-! ### `buildGraphElements` (App.jsx lines 292-441) -/

/-- The `data` record of a rendered node. -/
structure GraphNodeData where
  id : String
  label : String
  file : Option String
  line : Option Int
  package : Option String
  relation : String
  depth : Int
deriving DecidableEq, Repr

/-- A rendered node: merged data plus the union of its class tags. -/
structure GraphNode where
  data : GraphNodeData
  classes : List String
deriving DecidableEq, Repr

/-- A rendered directed edge. -/
structure GraphEdge where
  id : String
  source : String
  target : String
  classes : String
deriving DecidableEq, Repr

/-- `upsertNode`: insert a fresh node with deduplicated classes, or merge into
an existing one — data fields are overwritten, class tags unioned (first
occurrence kept, as with `new Set`). -/
def upsertNode (m : List (String × GraphNode)) (id : String) (d : GraphNodeData)
    (classes : List String) : List (String × GraphNode) :=
  upd (fun old =>
    match old with
    | none => ⟨d, classes.eraseDups⟩
    | some v => ⟨d, (v.classes ++ classes).eraseDups⟩) m id

/-- The node/edge model assembled for rendering.  (The source returns the
single array `[...nodeMap.values(), ...edgeList]`; nodes and edges are kept
apart here.) -/
structure GraphElements where
  nodes : List (String × GraphNode)
  edges : List GraphEdge
deriving DecidableEq, Repr

/-- The enriched data stored for a transitive node (`file`/`line` collapse
falsy values to `null`). -/
def transitiveData (n : TraversalNode) (relation : String) : GraphNodeData :=
  ⟨n.id, n.name, jsStrOrNull n.file, jsIntOrNull n.line, n.package, relation, depthVal n⟩

/-- The per-depth fan edges of one relation: for every depth key (in first-
appearance order) connect each node of that depth to every node one depth
closer (or to the focal node at depth 1 or when the previous layer is empty).
`towardFocal` orients caller edges into the focal node and callee edges out of
it. -/
def fanEdges (relation : String) (towardFocal : Bool) (focalId : String)
    (nodes : List TraversalNode) : List GraphEdge :=
  let depths := (nodes.map depthVal).eraseDups
  depths.flatMap (fun d =>
    let bucket := nodes.filter (fun n => depthVal n = d)
    let previousIds : List String :=
      if d = 1 then [focalId]
      else
        match (nodes.filter (fun n => depthVal n = d - 1)).map (·.id) with
        | [] => [focalId]
        | ids => ids
    let classes := if d = 1 then relation ++ " direct" else relation ++ " transitive"
    bucket.flatMap (fun n =>
      previousIds.map (fun pid =>
        if towardFocal then
          ⟨s!"{relation}:{d}:{pid}:{n.id}", n.id, pid, classes⟩
        else
          ⟨s!"{relation}:{d}:{pid}:{n.id}", pid, n.id, classes⟩)))

/-- The focal node's data record. -/
def focalData (f : FocalFunction) : GraphNodeData :=
  ⟨f.function_id, f.name, f.file, f.line, f.package, "focus", 0⟩

/-- The data record stored for a direct neighbor (depth 1). -/
def directLayerData (n : TraversalNode) : GraphNodeData :=
  ⟨n.id, n.name, n.file, n.line, n.package, n.direction, 1⟩

/-- The one direct-layer edge per neighbor, oriented by `direction`:
`"caller"` → focal, focal → `"callee"`. -/
def directEdge (focalId : String) (n : TraversalNode) : GraphEdge where
  id := s!"{focalId}:direct:{n.direction}:{n.id}"
  source := if n.direction = "caller" then n.id else focalId
  target := if n.direction = "caller" then focalId else n.id
  classes := n.direction ++ " direct"

/-- The node map built by `buildGraphElements`: the focal node, then every
direct neighbor, then every transitive caller and callee (skipping nodes whose
id equals the focal id), merged by id in that order. -/
def buildNodeMap (f : FocalFunction) (gd : GraphData) : List (String × GraphNode) :=
  ((gd.callChain.filter (fun n => n.id ≠ f.function_id)).foldl
    (fun m n => upsertNode m n.id (transitiveData n "callee")
      ["callee", "transitive", s!"depth-{depthVal n}"])
    ((gd.callers.filter (fun n => n.id ≠ f.function_id)).foldl
      (fun m n => upsertNode m n.id (transitiveData n "caller")
        ["caller", "transitive", s!"depth-{depthVal n}"])
      (gd.neighborhood.foldl
        (fun m n => upsertNode m n.id (directLayerData n) [n.direction, "direct"])
        (upsertNode [] f.function_id (focalData f) ["focus"]))))

/-- `buildGraphElements` (App.jsx): empty when no function is selected; else
upsert the focal node, the direct layer (with one edge each to/from the focal
node), and both transitive layers, then synthesize the per-depth fan edges. -/
def buildGraphElements (sel : Option FocalFunction) (gd : GraphData) :
    GraphElements :=
  match sel with
  | none => ⟨[], []⟩
  | some f =>
    ⟨buildNodeMap f gd,
      gd.neighborhood.map (directEdge f.function_id)
        ++ fanEdges "caller" true f.function_id
            (gd.callers.filter (fun n => n.id ≠ f.function_id))
        ++ fanEdges "callee" false f.function_id
            (gd.callChain.filter (fun n => n.id ≠ f.function_id))⟩

/-! ## Key lemmas for insertion-ordered maps -/

theorem keysOf_cons (p : String × β) (m : List (String × β)) :
    keysOf (p :: m) = p.1 :: keysOf m := rfl

theorem keysOf_upd_subset (f : Option β → β) (m : List (String × β)) (k : String) :
    keysOf (upd f m k) ⊆ k :: keysOf m := by
  induction m with
  | nil => simp [upd, keysOf]
  | cons p rest ih =>
    simp only [upd]
    split
    · intro x hx
      simp only [keysOf_cons, List.mem_cons] at hx ⊢
      tauto
    · intro x hx
      rcases List.mem_cons.mp hx with h | h
      · simp [keysOf_cons, h]
      · have := ih h
        simp only [keysOf_cons, List.mem_cons] at this ⊢
        tauto

theorem subset_keysOf_upd (f : Option β → β) (m : List (String × β)) (k : String) :
    keysOf m ⊆ keysOf (upd f m k) := by
  induction m with
  | nil => simp [keysOf]
  | cons p rest ih =>
    simp only [upd]
    split
    · simp [keysOf_cons, List.Subset.refl]
    · intro x hx
      simp only [keysOf_cons, List.mem_cons] at hx ⊢
      rcases hx with h | h
      · exact Or.inl h
      · exact Or.inr (ih h)

theorem self_mem_keysOf_upd (f : Option β → β) (m : List (String × β)) (k : String) :
    k ∈ keysOf (upd f m k) := by
  induction m with
  | nil => simp [upd, keysOf]
  | cons p rest ih =>
    simp only [upd]
    split
    · rename_i heq
      simp only [keysOf_cons, List.mem_cons]
      exact Or.inl heq.symm
    · simp only [keysOf_cons, List.mem_cons]
      exact Or.inr ih

theorem nodup_keysOf_upd (f : Option β → β) (m : List (String × β)) (k : String)
    (h : (keysOf m).Nodup) : (keysOf (upd f m k)).Nodup := by
  induction m with
  | nil => simp [upd, keysOf]
  | cons p rest ih =>
    simp only [keysOf_cons, List.nodup_cons] at h
    simp only [upd]
    split
    · simp only [keysOf_cons, List.nodup_cons]
      exact ⟨h.1, h.2⟩
    · rename_i hne
      simp only [keysOf_cons, List.nodup_cons]
      refine ⟨fun hmem => ?_, ih h.2⟩
      rcases List.mem_cons.mp (keysOf_upd_subset f rest k hmem) with h1 | h1
      · exact hne (h1 ▸ rfl)
      · exact h.1 h1

/-! ## Fold-of-upserts lemmas for `buildGraphElements` -/

theorem subset_keysOf_foldlUpsert {α : Type} (key : α → String)
    (dataF : α → GraphNodeData) (clsF : α → List String) (l : List α) :
    ∀ m : List (String × GraphNode),
      keysOf m ⊆ keysOf (l.foldl (fun m a => upsertNode m (key a) (dataF a) (clsF a)) m) := by
  induction l with
  | nil => intro m; simp
  | cons a rest ih =>
    intro m
    simp only [List.foldl_cons]
    exact List.Subset.trans (subset_keysOf_upd _ m (key a)) (ih _)

theorem keysOf_foldlUpsert_subset {α : Type} (key : α → String)
    (dataF : α → GraphNodeData) (clsF : α → List String) (l : List α) :
    ∀ m : List (String × GraphNode),
      keysOf (l.foldl (fun m a => upsertNode m (key a) (dataF a) (clsF a)) m)
        ⊆ keysOf m ++ l.map key := by
  induction l with
  | nil => intro m; simp
  | cons a rest ih =>
    intro m x hx
    have h1 := ih (upsertNode m (key a) (dataF a) (clsF a)) hx
    rcases List.mem_append.mp h1 with h | h
    · rcases List.mem_cons.mp (keysOf_upd_subset _ m (key a) h) with h2 | h2
      · simp [h2]
      · simp only [List.mem_append] at *
        tauto
    · simp only [List.map_cons, List.mem_append, List.mem_cons] at *
      tauto

theorem mem_keysOf_foldlUpsert {α : Type} (key : α → String)
    (dataF : α → GraphNodeData) (clsF : α → List String) (l : List α) :
    ∀ (m : List (String × GraphNode)) (a : α), a ∈ l →
      key a ∈ keysOf (l.foldl (fun m a => upsertNode m (key a) (dataF a) (clsF a)) m) := by
  induction l with
  | nil => intro m a h; cases h
  | cons b rest ih =>
    intro m a h
    simp only [List.foldl_cons]
    rcases List.mem_cons.mp h with h1 | h1
    · subst h1
      exact subset_keysOf_foldlUpsert key dataF clsF rest _
        (self_mem_keysOf_upd _ m (key a))
    · exact ih _ a h1

theorem nodup_keysOf_foldlUpsert {α : Type} (key : α → String)
    (dataF : α → GraphNodeData) (clsF : α → List String) (l : List α) :
    ∀ m : List (String × GraphNode), (keysOf m).Nodup →
      (keysOf (l.foldl (fun m a => upsertNode m (key a) (dataF a) (clsF a)) m)).Nodup := by
  induction l with
  | nil => intro m h; simpa using h
  | cons a rest ih =>
    intro m h
    exact ih _ (nodup_keysOf_upd _ m (key a) h)

/-! ## Budget arithmetic of `selectGraphData` -/

theorem length_takeMeaningfulNodes (nodes : List TraversalNode) (budget : Nat)
    (sel : Option FocalFunction) :
    (takeMeaningfulNodes nodes budget sel).length ≤ budget := by
  unfold takeMeaningfulNodes
  split
  · simp
  · simp [List.length_take]

theorem length_filter_split {α : Type} (p : α → Bool) (l : List α) :
    (l.filter p).length + (l.filter (fun a => !(p a))).length = l.length := by
  induction l with
  | nil => simp
  | cons a rest ih =>
    by_cases h : p a <;> simp [List.filter_cons, h, ← ih] <;> omega

/-- The neighborhood survives selection unchanged (up to the language filter),
in both views. -/
theorem selectGraphDataWith_neighborhood (maxNodes : Nat) (gd : GraphData)
    (graphView : String) (sel : Option FocalFunction) :
    (selectGraphDataWith maxNodes gd graphView sel).neighborhood
      = gd.neighborhood.filter isAllowedGraphNode := by
  unfold selectGraphDataWith
  split <;> rfl

/-- The transitive selection never exceeds the remaining budget
`maxNodes - 1 - |direct ids|` (computed with truncating subtraction, which
matches the source's `Math.max(..., 0)`). -/
theorem selectGraphDataWith_transitive_le (maxNodes : Nat) (gd : GraphData)
    (graphView : String) (sel : Option FocalFunction) :
    (selectGraphDataWith maxNodes gd graphView sel).callers.length
      + (selectGraphDataWith maxNodes gd graphView sel).callChain.length
      ≤ maxNodes - 1 - directCount gd := by
  unfold selectGraphDataWith
  split
  · simp
  · simp only [List.length_append]
    set neighborhood := gd.neighborhood.filter isAllowedGraphNode with hn
    set callers := gd.callers.filter isAllowedGraphNode with hc
    set callChain := gd.callChain.filter isAllowedGraphNode with he
    set directIds := (neighborhood.map (·.id)).dedup with hd
    set r := maxNodes - 1 - directIds.length with hr
    set filteredCallers := callers.filter (fun n => !(directIds.contains n.id)) with hfc
    set filteredCallees := callChain.filter (fun n => !(directIds.contains n.id)) with hfe
    set sc := takeMeaningfulNodes filteredCallers (r / 2) sel with hsc
    set se := takeMeaningfulNodes filteredCallees (r - r / 2) sel with hse
    set leftover := r - sc.length - se.length with hl
    set remainingNodes := (filteredCallers ++ filteredCallees).filter
      (fun n => !(((sc.map (·.id)) ++ (se.map (·.id))).contains n.id)) with hrn
    set extras := (if leftover = 0 then []
      else takeMeaningfulNodes remainingNodes leftover sel) with hex
    have hsc_le : sc.length ≤ r / 2 := length_takeMeaningfulNodes _ _ _
    have hse_le : se.length ≤ r - r / 2 := length_takeMeaningfulNodes _ _ _
    have hex_le : extras.length ≤ leftover := by
      rw [hex]
      split
      · simp
      · exact length_takeMeaningfulNodes _ _ _
    have hsplit :
        (extras.filter (fun n => callers.any (fun c => c.id = n.id))).length
          + (extras.filter (fun n => !(callers.any (fun c => c.id = n.id)))).length
          = extras.length := length_filter_split _ _
    have hdc : directIds.length = directCount gd := rfl
    omega

/-! ## Keys of the assembled node map -/

theorem keysOf_focal_upsert (f : FocalFunction) :
    keysOf (upsertNode [] f.function_id (focalData f) ["focus"]) = [f.function_id] := rfl

theorem buildNodeMap_keys_nodup (f : FocalFunction) (gd : GraphData) :
    (keysOf (buildNodeMap f gd)).Nodup := by
  unfold buildNodeMap
  apply nodup_keysOf_foldlUpsert
  apply nodup_keysOf_foldlUpsert
  apply nodup_keysOf_foldlUpsert
  rw [keysOf_focal_upsert]
  simp

theorem buildNodeMap_focal_mem (f : FocalFunction) (gd : GraphData) :
    f.function_id ∈ keysOf (buildNodeMap f gd) := by
  unfold buildNodeMap
  apply subset_keysOf_foldlUpsert _ _ _ _ _
  apply subset_keysOf_foldlUpsert _ _ _ _ _
  apply subset_keysOf_foldlUpsert _ _ _ _ _
  rw [keysOf_focal_upsert]
  simp

theorem buildNodeMap_neigh_mem (f : FocalFunction) (gd : GraphData) :
    ∀ n ∈ gd.neighborhood, n.id ∈ keysOf (buildNodeMap f gd) := by
  intro n hn
  unfold buildNodeMap
  apply subset_keysOf_foldlUpsert _ _ _ _ _
  apply subset_keysOf_foldlUpsert _ _ _ _ _
  exact mem_keysOf_foldlUpsert _ _ _ _ _ n hn

theorem buildNodeMap_callers_mem (f : FocalFunction) (gd : GraphData) :
    ∀ n ∈ gd.callers, n.id ∈ keysOf (buildNodeMap f gd) := by
  intro n hn
  by_cases h : n.id = f.function_id
  · rw [h]; exact buildNodeMap_focal_mem f gd
  · unfold buildNodeMap
    apply subset_keysOf_foldlUpsert _ _ _ _ _
    exact mem_keysOf_foldlUpsert _ _ _ _ _ n (List.mem_filter.mpr ⟨hn, by simp [h]⟩)

theorem buildNodeMap_callees_mem (f : FocalFunction) (gd : GraphData) :
    ∀ n ∈ gd.callChain, n.id ∈ keysOf (buildNodeMap f gd) := by
  intro n hn
  by_cases h : n.id = f.function_id
  · rw [h]; exact buildNodeMap_focal_mem f gd
  · unfold buildNodeMap
    exact mem_keysOf_foldlUpsert _ _ _ _ _ n (List.mem_filter.mpr ⟨hn, by simp [h]⟩)

theorem buildNodeMap_keys_subset (f : FocalFunction) (gd : GraphData) :
    keysOf (buildNodeMap f gd) ⊆
      f.function_id :: (gd.neighborhood.map (·.id) ++ gd.callers.map (·.id)
        ++ gd.callChain.map (·.id)) := by
  intro x hx
  unfold buildNodeMap at hx
  simp only [List.mem_cons, List.mem_append]
  rcases List.mem_append.mp (keysOf_foldlUpsert_subset _ _ _ _ _ hx) with h | hC
  · rcases List.mem_append.mp (keysOf_foldlUpsert_subset _ _ _ _ _ h) with h | hB
    · rcases List.mem_append.mp (keysOf_foldlUpsert_subset _ _ _ _ _ h) with h | hA
      · rw [keysOf_focal_upsert] at h
        simp only [List.mem_singleton] at h
        exact Or.inl h
      · exact Or.inr (Or.inl (Or.inl hA))
    · exact Or.inr (Or.inl (Or.inr
        (List.map_subset _ (List.filter_sublist gd.callers).subset hB)))
  · exact Or.inr (Or.inr
        (List.map_subset _ (List.filter_sublist gd.callChain).subset hC))

/-- Node count of the assembled map: at most the focal node plus the distinct
direct ids plus one per transitive input row. -/
theorem buildNodeMap_length_le (f : FocalFunction) (gd : GraphData) :
    (buildNodeMap f gd).length ≤
      1 + ((gd.neighborhood.map (·.id)).dedup).length
        + gd.callers.length + gd.callChain.length := by
  classical
  have hnodup := buildNodeMap_keys_nodup f gd
  have hsub := buildNodeMap_keys_subset f gd
  have hlen : (buildNodeMap f gd).length = (keysOf (buildNodeMap f gd)).length := by
    simp [keysOf]
  rw [hlen]
  set K := keysOf (buildNodeMap f gd)
  set A := gd.neighborhood.map (·.id) with hA
  set B := gd.callers.map (·.id) with hB
  set C := gd.callChain.map (·.id) with hC
  have h1 : K.length = K.toFinset.card := (List.toFinset_card_of_nodup hnodup).symm
  have h2 : K.toFinset ⊆ (f.function_id :: (A ++ B ++ C)).toFinset := by
    intro x hx
    rw [List.mem_toFinset] at hx ⊢
    exact hsub hx
  have h3 : K.toFinset.card ≤ (f.function_id :: (A ++ B ++ C)).toFinset.card :=
    Finset.card_le_card h2
  have h4 : (f.function_id :: (A ++ B ++ C)).toFinset.card
      ≤ 1 + A.toFinset.card + B.toFinset.card + C.toFinset.card := by
    rw [List.toFinset_cons, List.toFinset_append, List.toFinset_append]
    calc (insert f.function_id (A.toFinset ∪ B.toFinset ∪ C.toFinset)).card
        ≤ (A.toFinset ∪ B.toFinset ∪ C.toFinset).card + 1 :=
          Finset.card_insert_le _ _
      _ ≤ (A.toFinset ∪ B.toFinset).card + C.toFinset.card + 1 := by
          have := Finset.card_union_le (A.toFinset ∪ B.toFinset) C.toFinset
          omega
      _ ≤ A.toFinset.card + B.toFinset.card + C.toFinset.card + 1 := by
          have := Finset.card_union_le A.toFinset B.toFinset
          omega
      _ = 1 + A.toFinset.card + B.toFinset.card + C.toFinset.card := by omega
  have hAcard : A.toFinset.card = A.dedup.length := List.card_toFinset A
  have hBcard : B.toFinset.card ≤ B.length := by
    rw [List.card_toFinset]
    exact (List.dedup_sublist B).length_le
  have hCcard : C.toFinset.card ≤ C.length := by
    rw [List.card_toFinset]
    exact (List.dedup_sublist C).length_le
  have hBlen : B.length = gd.callers.length := by simp [hB]
  have hClen : C.length = gd.callChain.length := by simp [hC]
  omega

/-! ## Edge endpoints -/

theorem fanEdges_endpoints (relation : String) (towardFocal : Bool)
    (focalId : String) (nodes : List TraversalNode) (K : List String)
    (hf : focalId ∈ K) (hn : ∀ n ∈ nodes, n.id ∈ K) :
    ∀ e ∈ fanEdges relation towardFocal focalId nodes, e.source ∈ K ∧ e.target ∈ K := by
  intro e he
  unfold fanEdges at he
  simp only [List.mem_flatMap, List.mem_map] at he
  obtain ⟨d, _, n, hnb, pid, hpid, rfl⟩ := he
  have hnid : n.id ∈ K := hn n (List.mem_of_mem_filter hnb)
  have hpid' : pid ∈ K := by
    split at hpid
    · simp only [List.mem_singleton] at hpid
      exact hpid ▸ hf
    · split at hpid
      · simp only [List.mem_singleton] at hpid
        exact hpid ▸ hf
      · simp only [List.mem_map] at hpid
        obtain ⟨n', hn', rfl⟩ := hpid
        exact hn n' (List.mem_of_mem_filter hn')
  cases towardFocal <;> simp <;>
    first
      | exact ⟨hpid', hnid⟩
      | exact ⟨hnid, hpid'⟩

/-- C2: every edge produced by graph assembly has both endpoints present in
the produced node map, and the node map's ids are unique — for every focal
function and every (selected) node sets. -/
theorem assembly_edges_closed_and_ids_unique (sel : Option FocalFunction)
    (gd : GraphData) :
    ((buildGraphElements sel gd).edges.all (fun e =>
        decide (e.source ∈ keysOf (buildGraphElements sel gd).nodes)
          && decide (e.target ∈ keysOf (buildGraphElements sel gd).nodes))) = true
      ∧ (keysOf (buildGraphElements sel gd).nodes).Nodup := by
  cases sel with
  | none =>
    constructor
    · rfl
    · simp [buildGraphElements, keysOf]
  | some f =>
    have hK : (buildGraphElements (some f) gd).nodes = buildNodeMap f gd := rfl
    constructor
    · rw [List.all_eq_true]
      intro e he
      have hend : e.source ∈ keysOf (buildNodeMap f gd)
          ∧ e.target ∈ keysOf (buildNodeMap f gd) := by
        have hfocal := buildNodeMap_focal_mem f gd
        simp only [buildGraphElements, List.mem_append] at he
        rcases he with (he | he) | he
        · obtain ⟨n, hn, rfl⟩ := List.mem_map.mp he
          have hnid := buildNodeMap_neigh_mem f gd n hn
          unfold directEdge
          by_cases hdir : n.direction = "caller" <;> simp [hdir] <;>
            first
              | exact ⟨hnid, hfocal⟩
              | exact ⟨hfocal, hnid⟩
        · exact fanEdges_endpoints _ _ _ _ _ hfocal
            (fun n hn => buildNodeMap_callers_mem f gd n (List.mem_of_mem_filter hn))
            e he
        · exact fanEdges_endpoints _ _ _ _ _ hfocal
            (fun n hn => buildNodeMap_callees_mem f gd n (List.mem_of_mem_filter hn))
            e he
      rw [hK]
      simp [hend.1, hend.2]
    · rw [hK]
      exact buildNodeMap_keys_nodup f gd

/-- C1 (amended): assembly's node count is bounded by the node budget *or* by
the unconditionally-included direct layer, whichever is larger: at most
`max nodeBudget (1 + |distinct direct ids|)` nodes, and every (filtered)
direct neighbor is present in the node map. -/
theorem assembly_node_budget_with_direct_floor (nodeBudget : Nat)
    (graphView : String) (f : FocalFunction) (gd : GraphData) :
    (buildGraphElements (some f)
        (selectGraphDataWith nodeBudget gd graphView (some f))).nodes.length
        ≤ max nodeBudget (1 + directCount gd)
      ∧ ((selectGraphDataWith nodeBudget gd graphView (some f)).neighborhood.all
          (fun n => decide (n.id ∈ keysOf (buildGraphElements (some f)
            (selectGraphDataWith nodeBudget gd graphView (some f))).nodes))) = true := by
  constructor
  · have h1 : (buildGraphElements (some f)
        (selectGraphDataWith nodeBudget gd graphView (some f))).nodes.length
        ≤ 1 + (((selectGraphDataWith nodeBudget gd graphView (some f)).neighborhood.map
              (·.id)).dedup).length
          + (selectGraphDataWith nodeBudget gd graphView (some f)).callers.length
          + (selectGraphDataWith nodeBudget gd graphView (some f)).callChain.length :=
      buildNodeMap_length_le f _
    have h2 := selectGraphDataWith_transitive_le nodeBudget gd graphView (some f)
    have h3 : (((selectGraphDataWith nodeBudget gd graphView (some f)).neighborhood.map
        (·.id)).dedup).length = directCount gd := by
      rw [selectGraphDataWith_neighborhood]
      rfl
    omega
  · rw [List.all_eq_true]
    intro n hn
    have hmem : n.id ∈ keysOf (buildGraphElements (some f)
        (selectGraphDataWith nodeBudget gd graphView (some f))).nodes :=
      buildNodeMap_neigh_mem f _ n hn
    simp [hmem]

/-! ## Concrete scenario inputs -/

/-- A focal function used by the concrete scenarios. -/
def cxFocal : FocalFunction := ⟨"focal", "Focal", none, none, none⟩

/-- A direct neighbor (depth 1) with id and name `n<i>`. -/
def cxDirectNode (i : Nat) : TraversalNode :=
  ⟨s!"n{i}", s!"n{i}", none, none, none, "callee", some 1⟩

/-- Sixty distinct direct neighbors — exactly `MAX_GRAPH_NODES` of them. -/
def cxNeighborhood60 : List TraversalNode := (List.range 60).map cxDirectNode

/-- Ten distinct direct neighbors, as in the budget-12 scenario. -/
def cxNeighborhood10 : List TraversalNode := (List.range 10).map cxDirectNode

/-- One transitive callee candidate at depth 2. -/
def cxCallee : TraversalNode := ⟨"t1", "t1", none, none, none, "callee", some 2⟩

/-- C1 (counterexample): with 60 direct neighbors the assembled model holds
61 nodes — more than the node budget `MAX_GRAPH_NODES = 60` — because the
direct layer is included unconditionally; `nodes.size <= nodeBudget` fails. -/
theorem assembly_can_exceed_node_budget :
    (decide ((buildGraphElements (some cxFocal)
          (selectGraphData ⟨cxNeighborhood60, [], []⟩ "deep" (some cxFocal))).nodes.length
        ≤ MAX_GRAPH_NODES)) = false
      ∧ (buildGraphElements (some cxFocal)
          (selectGraphData ⟨cxNeighborhood60, [], []⟩ "deep"
            (some cxFocal))).nodes.length = 61 := by
  constructor
  · decide
  · decide

/-- C4 (counterexample): with 10 direct neighbors and a node budget of 12,
a lone transitive callee candidate *is* selected (the callee budget is
`remaining - floor(remaining/2) = 1`), so the selection is not empty for every
contents of the candidate pools. -/
theorem budget12_selects_a_transitive_node :
    (selectGraphDataWith 12 ⟨cxNeighborhood10, [cxCallee], []⟩ "deep"
        (some cxFocal)).callChain = [cxCallee] := by decide

/-- C4 (amended): with 10 direct neighbors and a node budget of 12, the
selection takes at most one transitive node in total (callerBudget = 0,
calleeBudget = 1), for every contents of the callee and caller candidate
pools, every view and every focal metadata. -/
theorem budget12_transitive_at_most_one (graphView : String)
    (sel : Option FocalFunction) (callees callers : List TraversalNode) :
    (selectGraphDataWith 12 ⟨cxNeighborhood10, callees, callers⟩ graphView sel).callers.length
      + (selectGraphDataWith 12 ⟨cxNeighborhood10, callees, callers⟩ graphView
          sel).callChain.length ≤ 1 := by
  have h := selectGraphDataWith_transitive_le 12 ⟨cxNeighborhood10, callees, callers⟩
    graphView sel
  have hd : directCount ⟨cxNeighborhood10, callees, callers⟩ = 10 := by
    have h10 : directCount ⟨cxNeighborhood10, [], []⟩ = 10 := by decide
    exact h10
  omega

/-! ## Order properties of the directory comparator -/

theorem lexLtChar_irrefl : ∀ l, lexLtChar l l = false
  | [] => rfl
  | c :: cs => by simp [lexLtChar, lexLtChar_irrefl cs]

theorem lexLtChar_trans :
    ∀ a b c, lexLtChar a b = true → lexLtChar b c = true → lexLtChar a c = true := by
  intro a
  induction a with
  | nil =>
    intro b c h1 h2
    cases b with
    | nil => exact absurd h1 (by simp [lexLtChar])
    | cons y ys =>
      cases c with
      | nil => exact absurd h2 (by simp [lexLtChar])
      | cons z zs => rfl
  | cons x xs ih =>
    intro b c h1 h2
    cases b with
    | nil => exact absurd h1 (by simp [lexLtChar])
    | cons y ys =>
      cases c with
      | nil => exact absurd h2 (by simp [lexLtChar])
      | cons z zs =>
        simp only [lexLtChar] at h1 h2 ⊢
        by_cases hxy : x = y <;> by_cases hyz : y = z
        · subst hxy
          subst hyz
          rw [if_pos rfl] at h1 h2 ⊢
          exact ih ys zs h1 h2
        · subst hxy
          rw [if_neg hyz] at h2 ⊢
          exact h2
        · subst hyz
          rw [if_neg hxy] at h1 ⊢
          exact h1
        · rw [if_neg hxy] at h1
          rw [if_neg hyz] at h2
          simp only [decide_eq_true_eq] at h1 h2
          by_cases hxz : x = z
          · subst hxz
            exact absurd (lt_trans h1 h2) (lt_irrefl x)
          · rw [if_neg hxz]
            simp only [decide_eq_true_eq]
            exact lt_trans h1 h2

theorem lexLtChar_total_of_ne :
    ∀ a b : List Char, a ≠ b → (lexLtChar a b || lexLtChar b a) = true := by
  intro a
  induction a with
  | nil =>
    intro b hne
    cases b with
    | nil => exact absurd rfl hne
    | cons y ys => rfl
  | cons x xs ih =>
    intro b hne
    cases b with
    | nil => simp [lexLtChar]
    | cons y ys =>
      simp only [lexLtChar]
      by_cases hxy : x = y
      · subst hxy
        rw [if_pos rfl, if_pos rfl]
        exact ih ys (fun e => hne (e ▸ rfl))
      · have hyx : y ≠ x := fun e => hxy e.symm
        rw [if_neg hxy, if_neg hyx]
        rcases lt_trichotomy x y with h | h | h
        · simp [h]
        · exact absurd h hxy
        · simp [h]

theorem lexLeChar_total : ∀ a b, (lexLeChar a b || lexLeChar b a) = true := by
  intro a
  induction a with
  | nil => intro b; rfl
  | cons x xs ih =>
    intro b
    cases b with
    | nil => simp [lexLeChar]
    | cons y ys =>
      simp only [lexLeChar]
      by_cases hxy : x = y
      · subst hxy
        rw [if_pos rfl, if_pos rfl]
        exact ih ys
      · have hyx : y ≠ x := fun e => hxy e.symm
        rw [if_neg hxy, if_neg hyx]
        rcases lt_trichotomy x y with h | h | h
        · simp [h]
        · exact absurd h hxy
        · simp [h]

theorem lexLeChar_trans :
    ∀ a b c, lexLeChar a b = true → lexLeChar b c = true → lexLeChar a c = true := by
  intro a
  induction a with
  | nil => intro b c _ _; rfl
  | cons x xs ih =>
    intro b c h1 h2
    cases b with
    | nil => exact absurd h1 (by simp [lexLeChar])
    | cons y ys =>
      cases c with
      | nil => exact absurd h2 (by simp [lexLeChar])
      | cons z zs =>
        simp only [lexLeChar] at h1 h2 ⊢
        by_cases hxy : x = y <;> by_cases hyz : y = z
        · subst hxy
          subst hyz
          rw [if_pos rfl] at h1 h2 ⊢
          exact ih ys zs h1 h2
        · subst hxy
          rw [if_neg hyz] at h2 ⊢
          exact h2
        · subst hyz
          rw [if_neg hxy] at h1 ⊢
          exact h1
        · rw [if_neg hxy] at h1
          rw [if_neg hyz] at h2
          simp only [decide_eq_true_eq] at h1 h2
          by_cases hxz : x = z
          · subst hxz
            exact absurd (lt_trans h1 h2) (lt_irrefl x)
          · rw [if_neg hxz]
            simp only [decide_eq_true_eq]
            exact lt_trans h1 h2

theorem localeLe_total (a b : String) : localeLe a b || localeLe b a := by
  unfold localeLe
  by_cases h : primaryKey a = primaryKey b
  · rw [if_pos h, if_pos h.symm]
    exact lexLeChar_total _ _
  · have h2 : primaryKey b ≠ primaryKey a := fun e => h e.symm
    rw [if_neg h, if_neg h2]
    exact lexLtChar_total_of_ne _ _ h

theorem localeLe_trans (a b c : String) (h1 : localeLe a b) (h2 : localeLe b c) :
    localeLe a c := by
  unfold localeLe at h1 h2 ⊢
  by_cases hab : primaryKey a = primaryKey b <;> by_cases hbc : primaryKey b = primaryKey c
  · rw [if_pos hab] at h1
    rw [if_pos hbc] at h2
    rw [if_pos (hab.trans hbc)]
    exact lexLeChar_trans _ _ _ h1 h2
  · rw [if_neg hbc] at h2
    rw [if_neg (fun e => hbc (hab.symm.trans e)), hab]
    exact h2
  · rw [if_neg hab] at h1
    rw [if_neg (fun e => hab (e.trans hbc.symm)), ← hbc]
    exact h1
  · rw [if_neg hab] at h1
    rw [if_neg hbc] at h2
    have h3 := lexLtChar_trans _ _ _ h1 h2
    have hac : primaryKey a ≠ primaryKey c := by
      intro e
      rw [e] at h3
      rw [lexLtChar_irrefl] at h3
      cases h3
    rw [if_neg hac]
    exact h3

theorem entryLe_total (a b : DirEntry) : entryLe a b || entryLe b a := by
  unfold entryLe
  by_cases h : typeRank a = typeRank b
  · rw [if_pos h, if_pos h.symm]
    exact localeLe_total a.name b.name
  · have h2 : typeRank b ≠ typeRank a := fun e => h e.symm
    rw [if_neg h, if_neg h2]
    simp only [Bool.or_eq_true, decide_eq_true_eq]
    omega

theorem entryLe_trans (a b c : DirEntry) (h1 : entryLe a b) (h2 : entryLe b c) :
    entryLe a c := by
  unfold entryLe at *
  by_cases hab : typeRank a = typeRank b <;> by_cases hbc : typeRank b = typeRank c
  · rw [if_pos hab] at h1
    rw [if_pos hbc] at h2
    rw [if_pos (hab.trans hbc)]
    exact localeLe_trans _ _ _ h1 h2
  · rw [if_neg hbc] at h2
    rw [if_neg (fun e => hbc (hab.symm.trans e))]
    simp only [decide_eq_true_eq] at h2 ⊢
    omega
  · rw [if_neg hab] at h1
    rw [if_neg (fun e => hab (e.trans hbc.symm))]
    simp only [decide_eq_true_eq] at h1 ⊢
    omega
  · rw [if_neg hab] at h1
    rw [if_neg hbc] at h2
    simp only [decide_eq_true_eq] at h1 h2
    by_cases hac : typeRank a = typeRank c
    · omega
    · rw [if_neg hac]
      simp only [decide_eq_true_eq]
      omega

/-! ## Every index entry is a directory or a file -/

/-- The entry types produced by the builder. -/
def goodEntry (e : DirEntry) : Prop :=
  e.type = "directory" ∨ e.type = "file"

theorem upd_forall {β : Type} (P : β → Prop) (f : Option β → β)
    (m : List (String × β)) (k : String)
    (hf : ∀ o : Option β, (∀ v, o = some v → P v) → P (f o))
    (hm : ∀ v ∈ m.map Prod.snd, P v) : ∀ v ∈ (upd f m k).map Prod.snd, P v := by
  induction m with
  | nil =>
    intro v hv
    simp only [upd, List.map_cons, List.map_nil, List.mem_singleton] at hv
    subst hv
    exact hf none (by simp)
  | cons p rest ih =>
    intro v hv
    simp only [upd] at hv
    split at hv
    · simp only [List.map_cons, List.mem_cons] at hv
      rcases hv with rfl | hv
      · exact hf (some p.2) (by intro w hw; cases hw; exact hm p.2 (by simp))
      · exact hm v (by simp only [List.map_cons, List.mem_cons]; exact Or.inr hv)
    · simp only [List.map_cons, List.mem_cons] at hv
      rcases hv with rfl | hv
      · exact hm p.2 (by simp)
      · exact ih (fun w hw => hm w
          (by simp only [List.map_cons, List.mem_cons]; exact Or.inr hw)) v hv

/-- All entries of all children maps are directories or files. -/
def goodIdx (entries : List (String × List (String × DirEntry))) : Prop :=
  ∀ mm ∈ entries.map Prod.snd, ∀ e ∈ mm.map Prod.snd, goodEntry e

theorem goodIdx_ensureDirectory (m : List (String × List (String × DirEntry)))
    (p : String) (h : goodIdx m) : goodIdx (ensureDirectory m p) := by
  refine upd_forall _ _ m p ?_ h
  intro o ho
  cases o with
  | none => simp
  | some v => exact ho v rfl

theorem goodIdx_setEntry (m : List (String × List (String × DirEntry)))
    (p name : String) (e : DirEntry) (he : goodEntry e) (h : goodIdx m) :
    goodIdx (upd (fun old => setEntry (old.getD []) name e) m p) := by
  refine upd_forall _ _ m p ?_ h
  intro o ho
  intro x hx
  have hgood : ∀ v ∈ (o.getD []).map Prod.snd, goodEntry v := by
    cases o with
    | none => simp
    | some v => exact ho v rfl
  exact upd_forall goodEntry (fun _ => e) (o.getD []) name (fun _ _ => he) hgood x hx

theorem goodIdx_addDirSegment (st : BrowserIndex × String) (name : String)
    (h : goodIdx st.1.entries) : goodIdx (addDirSegment st name).1.entries := by
  unfold addDirSegment
  exact goodIdx_setEntry _ _ _ _ (Or.inl rfl)
    (goodIdx_ensureDirectory _ _ (goodIdx_ensureDirectory _ _ h))

theorem goodIdx_addDirSegments (dirs : List String) :
    ∀ st : BrowserIndex × String, goodIdx st.1.entries →
      goodIdx (dirs.foldl addDirSegment st).1.entries := by
  induction dirs with
  | nil => intro st h; exact h
  | cons d rest ih =>
    intro st h
    exact ih _ (goodIdx_addDirSegment st d h)

theorem goodIdx_addSourceFile (idx : BrowserIndex) (row : SourceFileRow)
    (h : goodIdx idx.entries) : goodIdx (addSourceFile idx row).entries := by
  simp only [addSourceFile]
  split
  · exact h
  · split
    · exact h
    · exact goodIdx_setEntry _ _ _ _ (Or.inr rfl)
        (goodIdx_ensureDirectory _ _ (goodIdx_addDirSegments _ _ h))

theorem goodIdx_foldl (files : List SourceFileRow) :
    ∀ idx : BrowserIndex, goodIdx idx.entries →
      goodIdx (files.foldl addSourceFile idx).entries := by
  induction files with
  | nil => intro idx h; exact h
  | cons r rest ih =>
    intro idx h
    exact ih _ (goodIdx_addSourceFile idx r h)

theorem goodIdx_build (files : List SourceFileRow) :
    goodIdx (buildFileBrowserIndex files).entries := by
  unfold buildFileBrowserIndex
  refine goodIdx_foldl files _ ?_
  intro mm hmm e he
  simp only [List.map_cons, List.map_nil, List.mem_singleton] at hmm
  subst hmm
  simp at he

theorem lookupA_mem {β : Type} (m : List (String × β)) (k : String) (v : β)
    (h : lookupA m k = some v) : v ∈ m.map Prod.snd := by
  induction m with
  | nil => simp [lookupA] at h
  | cons p rest ih =>
    simp only [lookupA] at h
    split at h
    · cases h
      simp
    · simp only [List.map_cons, List.mem_cons]
      exact Or.inr (ih h)

theorem listDirectory_goodEntry (files : List SourceFileRow) (path : String) :
    ∀ e ∈ listDirectory (buildFileBrowserIndex files) path, goodEntry e := by
  intro e he
  unfold listDirectory at he
  split at he
  · cases he
  · rename_i m hm
    have hmem : e ∈ m.map Prod.snd := (mem_stableSort entryLe _ e).mp he
    exact goodIdx_build files m (lookupA_mem _ _ _ hm) e hmem

/-- C8 (amended): `listDirectory` output is sorted with every directory entry
before every file entry; within each group the names are non-decreasing in the
*locale collation* used by the source (`localeCompare`), which for mixed-case
ASCII names differs from case-sensitive code-unit order. -/
theorem listDirectory_sorted_locale (files : List SourceFileRow) (path : String) :
    (listDirectory (buildFileBrowserIndex files) path).Pairwise
      (fun a b => (a.type = "file" → b.type = "file")
        ∧ (a.type = b.type → localeLe a.name b.name = true)) := by
  have hgood := listDirectory_goodEntry files path
  have hsorted : (listDirectory (buildFileBrowserIndex files) path).Pairwise
      (fun a b => entryLe a b = true) := by
    unfold listDirectory
    split
    · simp
    · exact pairwise_stableSort entryLe entryLe_trans entryLe_total _
  refine hsorted.imp_of_mem ?_
  intro a b ha hb hle
  have hga := hgood a ha
  have hgb := hgood b hb
  unfold entryLe at hle
  constructor
  · intro hafile
    have hra : typeRank a = 1 := by
      unfold typeRank
      rw [hafile]
      simp
    split at hle
    · rename_i hrank
      rcases hgb with hdir | hfile
      · exfalso
        have hrb : typeRank b = 0 := by unfold typeRank; rw [hdir]; simp
        omega
      · exact hfile
    · simp only [decide_eq_true_eq] at hle
      have hrb : typeRank b ≤ 1 := by
        unfold typeRank
        split <;> omega
      omega
  · intro htype
    have hrank : typeRank a = typeRank b := by
      unfold typeRank
      rw [htype]
    rw [if_pos hrank] at hle
    exact hle

/-- The store used by the sorting counterexample: two root-level files whose
names compare differently under locale collation and code-unit order. -/
def cxBrowserFiles : List SourceFileRow := [⟨"a.go", "p"⟩, ⟨"B.go", "p"⟩]

/-- C8 (counterexample): on a store with files `a.go` and `B.go` the
listing is `[a.go, B.go]` (locale order): two entries of the same group
(`"file"`) whose names are *not* in non-decreasing case-sensitive
lexicographic order, since `"B.go" < "a.go"` by code units — the claimed
within-group ordering fails. -/
theorem listDirectory_not_codeunit_sorted :
    ((listDirectory (buildFileBrowserIndex cxBrowserFiles) "").map
        (fun e => (e.type, e.name)) = [("file", "a.go"), ("file", "B.go")])
      ∧ lexLeChar ("a.go" : String).data ("B.go" : String).data = false := by
  constructor
  · decide
  · decide

/-! ## Refinement of the resolver's two phases -/

theorem contains_eq_true_iff (files : List String) (c : String) :
    files.contains c = true ↔ c ∈ files := by
  simp [List.contains, List.elem_iff]

theorem contains_eq_false_of_not_mem (files : List String) (c : String)
    (h : ¬ c ∈ files) : files.contains c = false := by
  rcases Bool.eq_false_or_eq_true (files.contains c) with hb | hb
  · exact absurd ((contains_eq_true_iff files c).mp hb) h
  · exact hb

/-- The code's seen-tracking exact-match loop computes the first candidate
stored verbatim, provided the store has no empty path and `seen` holds only
candidates already found absent. -/
theorem exactScan_eq_find (files : List String) (hE : ¬ "" ∈ files) :
    ∀ (cs seen : List String), (∀ s ∈ seen, ¬ s ∈ files) →
      exactScan files cs seen = cs.find? (fun c => files.contains c) := by
  intro cs
  induction cs with
  | nil => intro seen _; rfl
  | cons c rest ih =>
    intro seen hseen
    simp only [exactScan]
    by_cases h1 : c = "" ∨ c ∈ seen
    · rw [if_pos h1]
      have hc : ¬ c ∈ files := by
        rcases h1 with rfl | hc
        · exact hE
        · exact hseen c hc
      rw [List.find?_cons_of_neg _ (fun hb => hc ((contains_eq_true_iff files c).mp hb))]
      exact ih seen hseen
    · rw [if_neg h1]
      push_neg at h1
      by_cases h2 : c ∈ files
      · rw [if_pos h2]
        rw [List.find?_cons_of_pos _ ((contains_eq_true_iff files c).mpr h2)]
      · rw [if_neg h2]
        rw [List.find?_cons_of_neg _ (fun hb => h2 ((contains_eq_true_iff files c).mp hb))]
        refine ih (c :: seen) ?_
        intro x hx
        rcases List.mem_cons.mp hx with rfl | hx
        · exact h2
        · exact hseen x hx

/-- The code's structural suffix loop equals the spec's indexed loop over
`start = 0, 1, …` with the same per-suffix step. -/
theorem suffixScan_eq_spec (files : List String) :
    ∀ segs : List String,
      suffixScan files segs
        = (List.range segs.length).findSome?
            (fun start => suffixStepWith findSourceFilesBySuffix files segs start) := by
  intro segs
  induction segs with
  | nil => rfl
  | cons p rest ih =>
    have hstep : (fun start => suffixStepWith findSourceFilesBySuffix files (p :: rest)
          (start + 1))
        = (fun start => suffixStepWith findSourceFilesBySuffix files rest start) :=
      funext (fun _ => rfl)
    have htail :
        (List.map Nat.succ (List.range rest.length)).findSome?
            (fun start => suffixStepWith findSourceFilesBySuffix files (p :: rest) start)
          = (List.range rest.length).findSome?
              (fun start => suffixStepWith findSourceFilesBySuffix files rest start) := by
      rw [List.findSome?_map]
      have : ((fun start => suffixStepWith findSourceFilesBySuffix files (p :: rest) start)
            ∘ Nat.succ)
          = (fun start => suffixStepWith findSourceFilesBySuffix files rest start) :=
        funext (fun _ => rfl)
      rw [this]
    rw [List.length_cons, List.range_succ_eq_map, List.findSome?_cons]
    simp only [suffixScan]
    by_cases hlen : (joinSlash (p :: rest)).length < 8
    · rw [if_pos hlen]
      have hzero : suffixStepWith findSourceFilesBySuffix files (p :: rest) 0 = none := by
        simp only [suffixStepWith, List.drop_zero]
        rw [if_pos hlen]
      rw [hzero, htail]
      exact ih
    · rw [if_neg hlen]
      have hzero : suffixStepWith findSourceFilesBySuffix files (p :: rest) 0
          = (match findSourceFilesBySuffix files (joinSlash (p :: rest)) with
              | [f] => some f
              | _ => none) := by
        simp only [suffixStepWith, List.drop_zero]
        rw [if_neg hlen]
      rw [hzero]
      rcases hm : findSourceFilesBySuffix files (joinSlash (p :: rest)) with _ | ⟨f, _ | ⟨g, t⟩⟩
      · rw [htail]; exact ih
      · rfl
      · rw [htail]; exact ih

/-- C6: for every input path, the resolver first normalizes and then tries the
exact candidates in the spec's precedence order — normalized, `./`-stripped,
leading-`/`-stripped — returning the first stored file that matches exactly;
in particular `resolve("./pkg/foo.go")` returns `"pkg/foo.go"` when the store
contains `pkg/foo.go`.  (The store is assumed to hold no empty canonical path.) -/
theorem resolver_exact_phase :
    (∀ (files : List String) (input f : String), ¬ "" ∈ files →
        exactMatchSpec files (normalizeFilePath input) = some f →
        resolveSourceFilePath files input = some f)
      ∧ resolveSourceFilePath ["other.go", "pkg/foo.go"] "./pkg/foo.go"
          = some "pkg/foo.go" := by
  constructor
  · intro files input f hE hex
    simp only [resolveSourceFilePath]
    by_cases hn : normalizeFilePath input = ""
    · exfalso
      rw [hn] at hex
      have hp : ¬ (files.contains "" = true) :=
        fun hb => hE ((contains_eq_true_iff files "").mp hb)
      have hnone : exactMatchSpec files "" = none := by
        show List.find? (fun c => files.contains c)
          ["", stripDotSlash "", stripLeadingSlashes ""] = none
        rw [show stripDotSlash "" = "" from rfl, show stripLeadingSlashes "" = "" from rfl]
        rw [List.find?_cons_of_neg _ hp, List.find?_cons_of_neg _ hp,
          List.find?_cons_of_neg _ hp]
        rfl
      rw [hnone] at hex
      cases hex
    · rw [if_neg hn]
      rw [exactScan_eq_find files hE _ [] (by simp)]
      have hex' : List.find? (fun c => files.contains c)
          [normalizeFilePath input, stripDotSlash (normalizeFilePath input),
            stripLeadingSlashes (normalizeFilePath input)] = some f := hex
      rw [hex']
  · decide

/-- Witness for `resolver_exact_phase`: applying the general part at a
concrete store and input. -/
theorem resolver_exact_phase_witness :
    resolveSourceFilePath ["x/y/z.go"] "x/y/z.go" = some "x/y/z.go" :=
  resolver_exact_phase.1 ["x/y/z.go"] "x/y/z.go" "x/y/z.go" (by decide) (by decide)

/-- C3 (amended): when no exact candidate matches, the resolver behaves as the
spec's suffix loop — longest suffix first, suffixes shorter than 8 characters
skipped, the lookup capped at 2 matches, success only on a unique match, null
when the loop runs out — where the lookup is the source's actual statement
`file LIKE '%'+suffix` (SQLite semantics: ASCII case-insensitive, `%`/`_` in
the suffix act as wildcards), not a plain ends-with test. -/
theorem resolver_suffix_phase (files : List String) (input : String)
    (hE : ¬ "" ∈ files)
    (hexact : exactMatchSpec files (normalizeFilePath input) = none) :
    resolveSourceFilePath files input
      = suffixMatchSpecLike files (normalizeFilePath input) := by
  simp only [resolveSourceFilePath]
  by_cases hn : normalizeFilePath input = ""
  · rw [if_pos hn, hn]
    rfl
  · rw [if_neg hn]
    rw [exactScan_eq_find files hE _ [] (by simp)]
    have hex' : List.find? (fun c => files.contains c)
        [normalizeFilePath input, stripDotSlash (normalizeFilePath input),
          stripLeadingSlashes (normalizeFilePath input)] = none := hexact
    rw [hex']
    exact suffixScan_eq_spec files _

/-- Witness for `resolver_suffix_phase`: a store and input where the exact
phase fails and the suffix phase resolves uniquely. -/
theorem resolver_suffix_phase_witness :
    resolveSourceFilePath ["prom/pkg/resolver/main.go"] "/weird/pkg/resolver/main.go"
      = suffixMatchSpecLike ["prom/pkg/resolver/main.go"]
          (normalizeFilePath "/weird/pkg/resolver/main.go") :=
  resolver_suffix_phase ["prom/pkg/resolver/main.go"] "/weird/pkg/resolver/main.go"
    (by decide) (by decide)

/-- C3 (counterexample): the claim reads the suffix query as "files ending
with the suffix".  On the store `["dir/openapiXexamples.go"]` and input
`"other/openapi_examples.go"` no exact candidate matches and no stored file
ends with any tried suffix — the claim's algorithm returns null — yet the code
resolves to `"dir/openapiXexamples.go"`, because the `_` in the suffix is a
SQL `LIKE` single-character wildcard. -/
theorem resolver_suffix_like_not_endswith :
    resolveSourceFilePath ["dir/openapiXexamples.go"] "other/openapi_examples.go"
        = some "dir/openapiXexamples.go"
      ∧ suffixMatchSpecEndsWith ["dir/openapiXexamples.go"]
          (normalizeFilePath "other/openapi_examples.go") = none
      ∧ exactMatchSpec ["dir/openapiXexamples.go"]
          (normalizeFilePath "other/openapi_examples.go") = none := by
  refine ⟨?_, ?_, ?_⟩ <;> decide

/-- C5: `/call-graph/file-functions` with a `file` parameter that resolves to
no stored canonical path returns HTTP 200 with `fileResolved: null` and an
empty `functions` list — it never raises the 404 the documentation specifies.
Evaluated at the failing input `file=zz.js` against a store holding only
`pkg/foo.go`; the second conjunct shows no input at all can produce a 404. -/
theorem file_functions_unresolved_returns_ok :
    fileFunctionsHandler true ["pkg/foo.go"] [] (some "zz.js")
        = .ok ⟨"zz.js", none, 0, []⟩
      ∧ ∀ (configured : Bool) (files : List String) (nodes : List NodeRow)
          (p : Option String),
          isNotFoundResult (fileFunctionsHandler configured files nodes p) = false := by
  constructor
  · rfl
  · intro cfg files nodes p
    have hreq : (∃ m, requireStringQueryParam p "file" = .error (.badRequest m))
        ∨ ∃ sv, requireStringQueryParam p "file" = .ok sv := by
      cases p with
      | none => exact Or.inl ⟨_, rfl⟩
      | some sv =>
        have hdef : requireStringQueryParam (some sv) "file"
            = if jsTrim sv = ""
              then .error (.badRequest "Query parameter \"file\" is required")
              else .ok (jsTrim sv) := rfl
        by_cases htrim : jsTrim sv = ""
        · exact Or.inl ⟨_, by rw [hdef, if_pos htrim]⟩
        · exact Or.inr ⟨_, by rw [hdef, if_neg htrim]⟩
    cases cfg with
    | false => rfl
    | true =>
      rcases hreq with ⟨m, hm⟩ | ⟨sv, hm⟩ <;>
        simp [fileFunctionsHandler, hm, isNotFoundResult]

/-- C7: executing the registry with a name absent from the registered query
set fails with `UnknownQuery`; in particular `execute("nonexistent_query", {})`
fails with `UnknownQuery`. -/
theorem registry_unknown_query_fails :
    (∀ (queries : List (String × String))
        (runner : String → List (String × String) → List QueryRow)
        (name : String) (params : List (String × String)),
        (∀ q ∈ queries, q.1 ≠ name) →
        runQueryByName queries runner name params = .error (.unknownQuery name))
      ∧ ∀ (runner : String → List (String × String) → List QueryRow)
          (params : List (String × String)),
          runQueryByName
            [("function_neighborhood", "SELECT 1"), ("symbol_search", "SELECT 2")]
            runner "nonexistent_query" params
            = .error (.unknownQuery "nonexistent_query") := by
  constructor
  · intro queries runner name params habs
    unfold runQueryByName getPreparedQueryByName getQuerySql
    have hfind : queries.find? (fun q => q.1 = name) = none := by
      rw [List.find?_eq_none]
      intro q hq
      simp only [decide_eq_true_eq]
      exact habs q hq
    rw [hfind]
    rfl
  · intro runner params
    rfl

/-- Witness for `registry_unknown_query_fails`: the general part applied at a
concrete registry, runner, name and parameters. -/
theorem registry_unknown_query_fails_witness :
    runQueryByName [("symbol_search", "SELECT 1")] (fun _ _ => [])
        "nonexistent_query" [] = .error (.unknownQuery "nonexistent_query") :=
  registry_unknown_query_fails.1 [("symbol_search", "SELECT 1")] (fun _ _ => [])
    "nonexistent_query" [] (by decide)

/-- C9: the search handler clamps an integer `limit` to `[1, 50]` and falls
back to 25 otherwise; the response holds only rows of kind `"function"`,
truncated to the limit; with `limit=2` and five matching functions exactly two
are returned. -/
theorem search_limit_and_kind_filter :
    (∀ a : LimitArg, 1 ≤ computeLimit a ∧ computeLimit a ≤ 50)
      ∧ computeLimit .missing = 25
      ∧ (∀ (rows : List SearchRow) (a : LimitArg),
          ((searchFunctions rows a).all (fun r => r.kind = "function")) = true)
      ∧ (∀ (rows : List SearchRow) (a : LimitArg),
          (searchFunctions rows a).length ≤ (computeLimit a).toNat)
      ∧ searchFunctions
          [⟨"function", "Foo1"⟩, ⟨"class", "Foo2"⟩, ⟨"function", "Foo3"⟩,
            ⟨"function", "Foo4"⟩, ⟨"function", "Foo5"⟩, ⟨"function", "Foo6"⟩]
          (.integer 2)
          = [⟨"function", "Foo1"⟩, ⟨"function", "Foo3"⟩] := by
  refine ⟨?_, rfl, ?_, ?_, by decide⟩
  · intro a
    cases a with
    | missing => exact ⟨by norm_num [computeLimit], by norm_num [computeLimit]⟩
    | integer n =>
      exact ⟨le_min (le_max_right n 1) (by norm_num), min_le_right _ _⟩
  · intro rows a
    rw [List.all_eq_true]
    intro r hr
    have h1 : r ∈ rows.filter (fun r => r.kind = "function") := by
      unfold searchFunctions at hr
      exact (List.take_sublist _ _).subset hr
    simpa using List.of_mem_filter h1
  · intro rows a
    unfold searchFunctions
    simp [List.length_take]

/-- C10: the graph data stored by `loadGraph` keeps only transitive callee and
caller nodes of depth at most `MAX_TRANSITIVE_DEPTH = 2`, for every traversal
response. -/
theorem load_graph_depth_capped (neighborhoodNodes callChainNodes callersNodes :
    Option (List TraversalNode)) :
    ((loadGraphData neighborhoodNodes callChainNodes callersNodes).callChain.all
        (fun n => decide (depthVal n ≤ MAX_TRANSITIVE_DEPTH))) = true
      ∧ ((loadGraphData neighborhoodNodes callChainNodes callersNodes).callers.all
        (fun n => decide (depthVal n ≤ MAX_TRANSITIVE_DEPTH))) = true := by
  constructor
  · rw [List.all_eq_true]
    intro n hn
    simp only [loadGraphData] at hn
    cases callChainNodes with
    | none => cases hn
    | some l => simpa using List.of_mem_filter hn
  · rw [List.all_eq_true]
    intro n hn
    simp only [loadGraphData] at hn
    cases callersNodes with
    | none => cases hn
    | some l => simpa using List.of_mem_filter hn

end GraphBackend
